import Mathlib

/- Verification of the apfs-copier tree-copy engine (src/main.rs).

   Paths are modelled as their component lists, exactly as Rust's
   `Path::components` / `Path::iter` view them: an absolute path has "/"
   as its first component (`Path::new("/out/a").iter()` yields
   ["/", "out", "a"]).  The filesystem, and the OS error codes the
   program observes, are an explicit environment record.  Machine
   behaviour that the program cannot recover from (`panic!`, `.unwrap()`
   on an `Err`/`None`) is modelled as an explicit `panic` result. -/

abbrev FsPath := List String

/-- One `str::replace(pat, "_")` call of the source for the
single-character patterns used there: every occurrence of `pat` becomes
an underscore. -/
def r (pat c : Char) : Char := if c = pat then '_' else c

/-- `underscore_non_windows_chars` from src/main.rs: the chain of nine
`replace` calls (patterns `" * / : < > ? \ |`) over the characters of a
path component. -/
def underscore_non_windows_chars (filename : String) : String :=
  ⟨((((((((filename.data.map (r '\"')).map (r '*')).map (r '/')).map
      (r ':')).map (r '<')).map (r '>')).map (r '?')).map (r '\\')).map (r '|')⟩

/-- Spec-side definition (for comparison with the source's replace
chain): membership in the forbidden set `" * / : < > ? \ |`. -/
def isForbidden (c : Char) : Bool :=
  c == '\"' || c == '*' || c == '/' || c == ':' || c == '<' || c == '>' ||
    c == '?' || c == '\\' || c == '|'

/-- Spec-side definition: per-character sanitization, replacing a
forbidden character with an underscore and keeping anything else. -/
def sanitizeChar (c : Char) : Char := if isForbidden c then '_' else c

theorem r_chain (c : Char) :
    r '|' (r '\\' (r '?' (r '>' (r '<' (r ':' (r '/' (r '*' (r '\"' c)))))))) =
      sanitizeChar c := by
  by_cases h1 : c = '\"'
  · subst h1; decide
  by_cases h2 : c = '*'
  · subst h2; decide
  by_cases h3 : c = '/'
  · subst h3; decide
  by_cases h4 : c = ':'
  · subst h4; decide
  by_cases h5 : c = '<'
  · subst h5; decide
  by_cases h6 : c = '>'
  · subst h6; decide
  by_cases h7 : c = '?'
  · subst h7; decide
  by_cases h8 : c = '\\'
  · subst h8; decide
  by_cases h9 : c = '|'
  · subst h9; decide
  simp [r, sanitizeChar, isForbidden, h1, h2, h3, h4, h5, h6, h7, h8, h9]

/-- The replace chain acts character-wise as `sanitizeChar`. -/
theorem underscore_eq_map (s : String) :
    underscore_non_windows_chars s = ⟨s.data.map sanitizeChar⟩ := by
  unfold underscore_non_windows_chars
  simp only [List.map_map]
  refine congrArg String.mk ?_
  refine List.map_congr_left ?_
  intro c _
  simp only [Function.comp_apply]
  exact r_chain c

theorem sanitizeChar_idem (c : Char) :
    sanitizeChar (sanitizeChar c) = sanitizeChar c := by
  by_cases h : isForbidden c
  · have h2 : sanitizeChar c = '_' := by simp [sanitizeChar, h]
    rw [h2]; decide
  · have h2 : sanitizeChar c = c := by simp [sanitizeChar, h]
    rw [h2]; exact h2

theorem isForbidden_sanitizeChar (c : Char) :
    isForbidden (sanitizeChar c) = false := by
  by_cases h : isForbidden c
  · have h2 : sanitizeChar c = '_' := by simp [sanitizeChar, h]
    rw [h2]; decide
  · have h2 : sanitizeChar c = c := by simp [sanitizeChar, h]
    rw [h2]
    exact Bool.eq_false_iff.mpr (fun hc => h hc)

theorem underscore_idem_helper (s : String) :
    underscore_non_windows_chars (underscore_non_windows_chars s) =
      underscore_non_windows_chars s := by
  rw [underscore_eq_map s, underscore_eq_map]
  show (⟨(s.data.map sanitizeChar).map sanitizeChar⟩ : String) = _
  rw [List.map_map]
  rw [show sanitizeChar ∘ sanitizeChar = sanitizeChar from funext sanitizeChar_idem]

/-- C8: the sanitizer returns a string of the same length that is
exactly the character-wise image under `sanitizeChar` (every forbidden
character becomes `_`, every other character is unchanged at its
position), and the output contains no forbidden character. -/
theorem c8_sanitizer_contract (s : String) :
    (underscore_non_windows_chars s).data = s.data.map sanitizeChar
    ∧ (underscore_non_windows_chars s).length = s.length
    ∧ (underscore_non_windows_chars s).data.all
        (fun c => !(isForbidden c)) = true := by
  have h := underscore_eq_map s
  refine ⟨by rw [h], ?_, ?_⟩
  · show (underscore_non_windows_chars s).data.length = s.data.length
    rw [h]
    simp
  · rw [h]
    show ((s.data.map sanitizeChar).all fun c => !(isForbidden c)) = true
    rw [List.all_map]
    rw [List.all_eq_true]
    intro c _
    simp [isForbidden_sanitizeChar]

/-- C9: path sanitization is idempotent. -/
theorem c9_sanitizer_idempotent (s : String) :
    underscore_non_windows_chars (underscore_non_windows_chars s) =
      underscore_non_windows_chars s :=
  underscore_idem_helper s

/-- Rust `Path::file_name`: the final component, when it is a normal
component (not the root marker, `.` or `..`). -/
def isNormalComp (s : String) : Bool := !(s == "/") && !(s == ".") && !(s == "..")

def file_name (p : FsPath) : Option String :=
  match p.getLast? with
  | some c => if isNormalComp c then some c else none
  | none => none

/-- Rust `PathBuf::set_file_name`: if the path has a file name, pop it
and push the new name; otherwise just push the new name. -/
def set_file_name (p : FsPath) (nm : String) : FsPath :=
  match file_name p with
  | some _ => p.dropLast ++ [nm]
  | none => p ++ [nm]

/-- `replace_forbidden_characters` from src/main.rs: re-sanitize only the
final component.  `none` models the `.unwrap()` panic when the path has
no file name. -/
def replace_forbidden_characters (p : FsPath) : Option FsPath :=
  (file_name p).map fun f => set_file_name p (underscore_non_windows_chars f)

/-- The destination-path mapping of `copy_tree` (src/main.rs lines
53-58): strip the source root, join onto the destination root, then map
`underscore_non_windows_chars` over every component of the joined path
(Rust's `.iter()` yields the root marker "/" of an absolute path as a
component too).  `none` models the `strip_prefix(..).unwrap()` panic. -/
def dest_path (dst src p : FsPath) : Option FsPath :=
  if src.isPrefixOf p then
    some ((dst ++ p.drop src.length).map underscore_non_windows_chars)
  else none

/-- C1: evaluation of the mapping at the spec's own example.  With
`sourceRoot = /src`, `destRoot = /out` and source file `/src/a/b.txt`
(no component needing sanitization), the code produces the RELATIVE
path `_/out/a/b.txt` — the root marker "/" of the absolute destination
is itself rewritten to `_` — and not `/out/a/b.txt` as the claim
states.  With a relative destination root the mapping does behave as
claimed. -/
theorem c1_dest_mapping_drops_absolute_root :
    dest_path ["/", "out"] ["/", "src"] ["/", "src", "a", "b.txt"]
      = some ["_", "out", "a", "b.txt"]
    ∧ (["_", "out", "a", "b.txt"] : FsPath) ≠ ["/", "out"] ++ ["a", "b.txt"]
    ∧ dest_path ["out"] ["/", "src"] ["/", "src", "a", "b.txt"]
      = some ["out", "a", "b.txt"] := by
  refine ⟨by decide, by decide, by decide⟩

theorem getLast?_map (f : String → String) :
    ∀ l : FsPath, (l.map f).getLast? = l.getLast?.map f := by
  intro l
  induction l with
  | nil => rfl
  | cons a t ih =>
    cases t with
    | nil => rfl
    | cons b t2 =>
      simp only [List.map_cons] at ih ⊢
      rw [List.getLast?_cons_cons, List.getLast?_cons_cons, ih]

/-- C10: on any destination path produced by the bulk per-component
mapping whose final component is a normal component, the
final-component repair `replace_forbidden_characters` is the identity
(modulo the `some` of its non-panicking execution): the final component
was already sanitized, and sanitization is idempotent, so the
invalid-argument retry re-attempts the operation with the very path
that failed. -/
theorem c10_repair_identity_on_mapped (dst src p q : FsPath) (f : String)
    (h1 : dest_path dst src p = some q) (h2 : file_name q = some f) :
    replace_forbidden_characters q = some q := by
  unfold replace_forbidden_characters
  rw [h2]
  have hq : q = (dst ++ p.drop src.length).map underscore_non_windows_chars := by
    unfold dest_path at h1
    by_cases hpre : src.isPrefixOf p
    · rw [if_pos hpre] at h1
      exact (Option.some_inj.mp h1).symm
    · rw [if_neg hpre] at h1
      exact absurd h1 (by simp)
  have hlast : q.getLast? = some f := by
    unfold file_name at h2
    cases hgl : q.getLast? with
    | none => rw [hgl] at h2; exact absurd h2 (by simp)
    | some c =>
      rw [hgl] at h2
      by_cases hn : isNormalComp c
      · simp only [hn, if_true] at h2
        exact h2
      · simp [hn] at h2
  have hf : underscore_non_windows_chars f = f := by
    have : ((dst ++ p.drop src.length).map
        underscore_non_windows_chars).getLast? = some f := by
      rw [← hq]; exact hlast
    rw [getLast?_map] at this
    cases hx : (dst ++ p.drop src.length).getLast? with
    | none => rw [hx] at this; exact absurd this (by simp)
    | some x =>
      rw [hx] at this
      have hfx : underscore_non_windows_chars x = f := by
        simpa using this
      rw [← hfx]
      exact underscore_idem_helper x
  simp only [Option.map_some']
  rw [hf]
  unfold set_file_name
  rw [h2]
  rw [Option.some_inj]
  show q.dropLast ++ [f] = q
  have hne : q ≠ [] := by
    intro he
    rw [he] at hlast
    exact absurd hlast (by simp)
  have hgl2 : f = q.getLast hne := by
    have h3 := List.getLast?_eq_getLast q hne
    rw [hlast] at h3
    exact Option.some_inj.mp h3
  rw [hgl2]
  exact List.dropLast_append_getLast hne

/-- C10 witness: source file `/src/a*` under destination root `out`
maps to `["out", "a_"]`, whose repair is the identity. -/
theorem c10_witness :
    dest_path ["out"] ["/", "src"] ["/", "src", "a*"] = some ["out", "a_"]
    ∧ file_name ["out", "a_"] = some "a_"
    ∧ replace_forbidden_characters ["out", "a_"] = some ["out", "a_"] :=
  ⟨by decide, by decide,
    c10_repair_identity_on_mapped ["out"] ["/", "src"] ["/", "src", "a*"]
      ["out", "a_"] "a_" (by decide) (by decide)⟩

/-- One result of iterating `fs::read_dir`: an entry's file name, or an
`io::Error` with the given raw OS error code. -/
inductive EntryRes where
  | ok (name : String)
  | err (code : Nat)
deriving DecidableEq

/-- The filesystem / OS as the program observes it: whether a path is a
directory, the error (if any) of the `fs::read_dir` call itself, the
sequence of results its entry iterator yields, the error (if any) of
`fs::create_dir_all`, and the error (if any) of `fs::copy`, keyed by
source and destination path.  `none` means success. -/
structure Env where
  isDir : FsPath → Bool
  readDirErr : FsPath → Option Nat
  listing : FsPath → List EntryRes
  mkdirErr : FsPath → Option Nat
  copyErr : FsPath → FsPath → Option Nat

/-- The state of a run: the traversal stack (head = top), the failure
registry `FAILED_CONNECTION_ABORTS` (exact-path membership), the
existing destination files, the `fs::copy` invocations performed so far
(most recent first), and the number of remount cycles. -/
structure St where
  stack : List FsPath
  failed : List FsPath
  destFiles : List FsPath
  copyAttempts : List (FsPath × FsPath)
  remounts : Nat
deriving DecidableEq

/-- `handle_software_caused_connection_abort`: remember the path in the
registry and remount. -/
def handle_software_caused_connection_abort (st : St) (path : FsPath) : St :=
  { st with failed := path :: st.failed, remounts := st.remounts + 1 }

inductive CRes where
  | ok (st : St)
  | panic
  | outOfFuel (st : St)
deriving DecidableEq

/-- `copy_file` from src/main.rs.  The fuel bounds only the depth of the
unbounded `Some(22)` recursion; `outOfFuel` carries the state reached
when it runs out. -/
def copy_file (env : Env) : Nat → St → FsPath → FsPath → CRes
  | 0, st, _, _ => .outOfFuel st
  | fuel+1, st, fr, tgt =>
    if tgt ∈ st.destFiles then .ok st
    else
      let st1 := { st with copyAttempts := (fr, tgt) :: st.copyAttempts }
      match env.copyErr fr tgt with
      | none => .ok { st1 with destFiles := tgt :: st1.destFiles }
      | some code =>
        if code = 5 then .ok st1
        else if code = 103 then
          .ok (handle_software_caused_connection_abort st1 fr)
        else if code = 22 then
          match replace_forbidden_characters tgt with
          | none => .panic
          | some tgt2 => copy_file env fuel st1 fr tgt2
        else .panic

/-- The `for entry in fs::read_dir(&path)` loop body: push each
successfully read entry's path, stop with the remount flag set on a 103
error, panic on any other error. -/
def process_listing (parent : FsPath) :
    List EntryRes → List FsPath → Option (List FsPath × Bool)
  | [], stack => some (stack, false)
  | .ok name :: rest, stack =>
    process_listing parent rest ((parent ++ [name]) :: stack)
  | .err code :: _, stack =>
    if code = 103 then some (stack, true) else none

/-- The resolved configuration (the `Cli` struct). -/
structure Cli where
  device : String
  mount_point : String
  source : FsPath
  dest : FsPath

inductive StepRes where
  | ok (st : St)
  | done
  | panic
  | outOfFuel (st : St)
deriving DecidableEq

/-- One iteration of the `while let Some(path) = stack.pop()` loop of
`copy_tree` (src/main.rs lines 46-93).  `cfuel` bounds only the
`copy_file` retry recursion. -/
def step (env : Env) (args : Cli) (cfuel : Nat) (st : St) : StepRes :=
  match st.stack with
  | [] => .done
  | p :: rest =>
    let st0 : St := { st with stack := rest }
    if p ∈ st0.failed then .ok st0
    else
      match dest_path args.dest args.source p with
      | none => .panic
      | some dp =>
        if env.isDir p then
          let mkOk : Bool :=
            match env.mkdirErr dp with
            | none => true
            | some code =>
              if code = 22 then
                match replace_forbidden_characters dp with
                | none => false
                | some dp2 =>
                  match env.mkdirErr dp2 with
                  | none => true
                  | some _ => false
              else false
          if mkOk then
            match env.readDirErr p with
            | some _ => .panic
            | none =>
              match process_listing p (env.listing p) st0.stack with
              | none => .panic
              | some (stack2, needRemount) =>
                let st1 : St := { st0 with stack := stack2 }
                if needRemount then
                  .ok (handle_software_caused_connection_abort st1 p)
                else .ok st1
          else .panic
        else
          match copy_file env cfuel st0 p dp with
          | .ok st2 => .ok st2
          | .panic => .panic
          | .outOfFuel st2 => .outOfFuel st2

inductive RunRes where
  | finished (st : St)
  | panicked
  | outOfFuel (st : St)
deriving DecidableEq

/-- The traversal loop of `copy_tree`, fuelled. -/
def copy_tree (env : Env) (args : Cli) : Nat → St → RunRes
  | 0, st => .outOfFuel st
  | fuel+1, st =>
    match step env args (fuel+1) st with
    | .done => .finished st
    | .panic => .panicked
    | .outOfFuel st2 => .outOfFuel st2
    | .ok st2 => copy_tree env args fuel st2

/-- Exactly `n` loop iterations (staying put once the stack is empty);
`none` when the run panicked or `copy_file` ran out of fuel. -/
def stepN (env : Env) (args : Cli) (cfuel : Nat) : Nat → St → Option St
  | 0, st => some st
  | n+1, st =>
    match step env args cfuel st with
    | .done => some st
    | .ok st2 => stepN env args cfuel n st2
    | .panic => none
    | .outOfFuel _ => none

/-- `q` lies strictly under `p` (`p` is a proper ancestor path). -/
def strictUnder (p q : FsPath) : Prop := p <+: q ∧ p ≠ q

instance (p q : FsPath) : Decidable (strictUnder p q) := by
  unfold strictUnder
  infer_instance

/-- All error items in a listing are connection aborts (code 103). -/
def only_abort_errors (items : List EntryRes) : Bool :=
  items.all fun e =>
    match e with
    | .ok _ => true
    | .err code => code == 103

/-- Observable events of the Mount Controller: a mount attempt (with its
success flag), an `umount` subprocess call, a 10-second settle delay. -/
inductive MEv where
  | attempt (success : Bool)
  | umountCall
  | settle
deriving DecidableEq

/-- `umount` logs its subprocess call and always ends with a settle
delay, tolerating failure of the unmount itself. -/
def umount_events : List MEv := [.umountCall, .settle]

/-- `mount` from src/main.rs: attempt `k` has outcome `oc k`; on failure
it umounts (with the settle delay inside `umount`) and recurses, and a
settle delay follows the `if` in every frame once the recursion
returns.  `none` models the recursion never returning. -/
def mount (oc : Nat → Bool) : Nat → Nat → Option (List MEv)
  | 0, _ => none
  | fuel+1, k =>
    if oc k then some [.attempt true, .settle]
    else
      (mount oc fuel (k+1)).map
        (fun evs => [.attempt false] ++ umount_events ++ evs ++ [.settle])

/-- The full `mount` event trace for `n` failed attempts followed by a
success: each failure logs the attempt, an umount with its settle, and
the settle of its own frame trails at the end. -/
def mount_trace (n : Nat) : List MEv :=
  (List.replicate n ([MEv.attempt false] ++ umount_events)).flatten
    ++ [.attempt true, .settle] ++ List.replicate n .settle

/-- C7: a file copy failing with a source-side input/output error (OS
error 5) returns success with exactly the one recorded copy attempt:
no retry, no panic, and the failure registry, destination files, stack
and remount count are all unchanged. -/
theorem c7_io_error_silent_skip (env : Env) (n : Nat) (st : St)
    (fr tgt : FsPath) (h1 : tgt ∉ st.destFiles)
    (h2 : env.copyErr fr tgt = some 5) :
    copy_file env (n+1) st fr tgt =
      .ok { st with copyAttempts := (fr, tgt) :: st.copyAttempts } := by
  unfold copy_file
  rw [if_neg h1, h2]
  rfl

def envC7 : Env :=
  { isDir := fun _ => false
    readDirErr := fun _ => none
    listing := fun _ => []
    mkdirErr := fun _ => none
    copyErr := fun _ _ => some 5 }

/-- C7 witness: a concrete io-error copy is silently skipped. -/
theorem c7_witness :
    copy_file envC7 1 ⟨[], [], [], [], 0⟩ ["/", "s", "f"] ["d", "f"] =
      .ok ⟨[], [], [], [(["/", "s", "f"], ["d", "f"])], 0⟩ :=
  c7_io_error_silent_skip envC7 0 ⟨[], [], [], [], 0⟩
    ["/", "s", "f"] ["d", "f"] (by decide) rfl

theorem mount_trace_zero : mount_trace 0 = [MEv.attempt true, MEv.settle] := by
  unfold mount_trace
  simp

theorem mount_trace_succ (n : Nat) :
    mount_trace (n+1) =
      [MEv.attempt false] ++ umount_events ++ mount_trace n ++ [MEv.settle] := by
  unfold mount_trace
  rw [List.replicate_succ, List.flatten_cons, List.replicate_succ']
  simp [List.append_assoc]

/-- C5: the Mount Controller retries without any bound.  First, for
every finite number `n` of initial failures followed by a success and
any fuel exceeding `n`, `mount` returns after the first successful
attempt with the trace `mount_trace n`, which contains an umount call
and settle delay after each of the `n` failures and never aborts for
any `n`.  Second, while every attempt fails, `mount` never returns. -/
theorem c5_mount_retries_unbounded (oc : Nat → Bool) :
    (∀ n k fuel, (∀ j, j < n → oc (k + j) = false) → oc (k + n) = true →
      n < fuel → mount oc fuel k = some (mount_trace n))
    ∧ ((∀ k, oc k = false) → ∀ fuel k, mount oc fuel k = none) := by
  constructor
  · intro n
    induction n with
    | zero =>
      intro k fuel _ hs hf
      cases fuel with
      | zero => exact absurd hf (by omega)
      | succ m =>
        rw [Nat.add_zero] at hs
        unfold mount
        rw [if_pos hs, mount_trace_zero]
    | succ n ih =>
      intro k fuel hfail hs hf
      cases fuel with
      | zero => exact absurd hf (by omega)
      | succ m =>
        have h0 : oc k = false := by
          have hh := hfail 0 (by omega)
          rw [Nat.add_zero] at hh
          exact hh
        have hrec : mount oc m (k+1) = some (mount_trace n) := by
          refine ih (k+1) m ?_ ?_ (by omega)
          · intro j hj
            have hh := hfail (j+1) (by omega)
            rw [show k + (j+1) = k + 1 + j by omega] at hh
            exact hh
          · rw [show k + 1 + n = k + (n+1) by omega]
            exact hs
        unfold mount
        rw [if_neg (by simp [h0]), hrec, mount_trace_succ]
        rfl
  · intro hall fuel
    induction fuel with
    | zero => intro k; rfl
    | succ m ih =>
      intro k
      unfold mount
      rw [if_neg (by simp [hall k]), ih (k+1)]
      rfl

/-- C5 witness: two failures then success give two umount+settle cycles
and a successful return at fuel 4; a never-succeeding mount never
returns, at any fuel. -/
theorem c5_witness :
    mount (fun k => decide (2 ≤ k)) 4 0 = some (mount_trace 2)
    ∧ mount (fun _ => false) 3 0 = none :=
  ⟨(c5_mount_retries_unbounded (fun k => decide (2 ≤ k))).1 2 0 4
      (by decide) (by decide) (by decide),
    (c5_mount_retries_unbounded (fun _ => false)).2 (fun _ => rfl) 3 0⟩

def CRes.diverged : CRes → Bool
  | .outOfFuel _ => true
  | _ => false

/-- Unfolding equation of `copy_file` at positive fuel. -/
theorem copy_file_succ (env : Env) (fuel : Nat) (st : St) (fr tgt : FsPath) :
    copy_file env (fuel+1) st fr tgt =
      if tgt ∈ st.destFiles then .ok st
      else
        match env.copyErr fr tgt with
        | none => .ok { st with copyAttempts := (fr, tgt) :: st.copyAttempts,
                                destFiles := tgt :: st.destFiles }
        | some code =>
          if code = 5 then
            .ok { st with copyAttempts := (fr, tgt) :: st.copyAttempts }
          else if code = 103 then
            .ok (handle_software_caused_connection_abort
              { st with copyAttempts := (fr, tgt) :: st.copyAttempts } fr)
          else if code = 22 then
            match replace_forbidden_characters tgt with
            | none => .panic
            | some tgt2 =>
              copy_file env fuel
                { st with copyAttempts := (fr, tgt) :: st.copyAttempts } fr tgt2
          else .panic := rfl

/-- Unfolding of `copy_file` when `fs::copy` fails with a known code. -/
theorem copy_file_err (env : Env) (fuel : Nat) (st : St) (fr tgt : FsPath)
    (code : Nat) (hx : tgt ∉ st.destFiles)
    (he : env.copyErr fr tgt = some code) :
    copy_file env (fuel+1) st fr tgt =
      (if code = 5 then
        CRes.ok { st with copyAttempts := (fr, tgt) :: st.copyAttempts }
      else if code = 103 then
        CRes.ok (handle_software_caused_connection_abort
          { st with copyAttempts := (fr, tgt) :: st.copyAttempts } fr)
      else if code = 22 then
        match replace_forbidden_characters tgt with
        | none => CRes.panic
        | some tgt2 =>
          copy_file env fuel
            { st with copyAttempts := (fr, tgt) :: st.copyAttempts } fr tgt2
      else CRes.panic) := by
  rw [copy_file_succ, if_neg hx, he]

/-- C4 (amended): on a destination-side invalid-argument error (OS 22)
the copy is re-attempted once with the final component re-sanitized
(first conjunct), and the retry's error class is re-evaluated: error 5
on the retry is a silent skip, and any class outside {5, 103, 22}
panics (second and third conjuncts).  But a 22 on the retry is neither
fatal nor capped at one retry: since re-sanitization is idempotent the
retry path repairs to itself, and if the error persists the recursion
retries forever — it exhausts any fuel (fourth conjunct). -/
theorem c4_invalid_arg_retry_behavior (env : Env) (fr tgt tgt2 : FsPath)
    (st : St) (n : Nat)
    (hmem : tgt ∉ st.destFiles) (h22 : env.copyErr fr tgt = some 22)
    (hrep : replace_forbidden_characters tgt = some tgt2) :
    (copy_file env (n+1) st fr tgt =
      copy_file env n { st with copyAttempts := (fr, tgt) :: st.copyAttempts }
        fr tgt2)
    ∧ (tgt2 ∉ st.destFiles → env.copyErr fr tgt2 = some 5 →
        copy_file env (n+2) st fr tgt =
          .ok { st with copyAttempts :=
            (fr, tgt2) :: (fr, tgt) :: st.copyAttempts })
    ∧ (∀ c, tgt2 ∉ st.destFiles → env.copyErr fr tgt2 = some c →
        c ≠ 5 → c ≠ 103 → c ≠ 22 →
        copy_file env (n+2) st fr tgt = .panic)
    ∧ (env.copyErr fr tgt2 = some 22 →
        replace_forbidden_characters tgt2 = some tgt2 →
        ∀ m st3, tgt2 ∉ st3.destFiles →
          (copy_file env m st3 fr tgt2).diverged = true) := by
  have hstep : ∀ (k : Nat) (stx : St), tgt ∉ stx.destFiles →
      copy_file env (k+1) stx fr tgt =
        copy_file env k
          { stx with copyAttempts := (fr, tgt) :: stx.copyAttempts } fr tgt2 := by
    intro k stx hx
    rw [copy_file_err env k stx fr tgt 22 hx h22,
      if_neg (show ¬(22:Nat) = 5 by decide),
      if_neg (show ¬(22:Nat) = 103 by decide), if_pos rfl, hrep]
  refine ⟨hstep n st hmem, ?_, ?_, ?_⟩
  · intro h2m h5
    rw [show n + 2 = (n+1) + 1 by omega, hstep (n+1) st hmem,
      copy_file_err env n
        { st with copyAttempts := (fr, tgt) :: st.copyAttempts }
        fr tgt2 5 h2m h5, if_pos rfl]
  · intro c h2m hc hc5 hc103 hc22
    rw [show n + 2 = (n+1) + 1 by omega, hstep (n+1) st hmem,
      copy_file_err env n
        { st with copyAttempts := (fr, tgt) :: st.copyAttempts }
        fr tgt2 c h2m hc, if_neg hc5, if_neg hc103, if_neg hc22]
  · intro h22b hrep2 m
    induction m with
    | zero => intro st3 _; rfl
    | succ m ih =>
      intro st3 h3
      rw [copy_file_err env m st3 fr tgt2 22 h3 h22b,
        if_neg (show ¬(22:Nat) = 5 by decide),
        if_neg (show ¬(22:Nat) = 103 by decide), if_pos rfl, hrep2]
      exact ih _ h3

def envC4 : Env :=
  { isDir := fun _ => false
    readDirErr := fun _ => none
    listing := fun _ => []
    mkdirErr := fun _ => none
    copyErr := fun _ _ => some 22 }

/-- C4 counterexample: destination `["d", "f."]` contains no forbidden
character, so its repair is itself; with the filesystem persistently
rejecting it with OS error 22 (e.g. an exFAT name ending in a dot),
fuel 4 is exhausted after FOUR `fs::copy` attempts — three sanitization
retries, refuting "there is never more than one sanitization retry for
the same copy". -/
theorem c4_unbounded_sanitize_retries :
    copy_file envC4 4 ⟨[], [], [], [], 0⟩ ["/", "s", "f."] ["d", "f."] =
      .outOfFuel ⟨[], [], [],
        [(["/", "s", "f."], ["d", "f."]), (["/", "s", "f."], ["d", "f."]),
         (["/", "s", "f."], ["d", "f."]), (["/", "s", "f."], ["d", "f."])],
        0⟩ := by
  decide

/-- C4 witness: the amended theorem applied at the concrete
counterexample environment. -/
theorem c4_witness :
    (copy_file envC4 1 ⟨[], [], [], [], 0⟩ ["/", "s", "f."] ["d", "f."] =
      copy_file envC4 0
        ⟨[], [], [], [(["/", "s", "f."], ["d", "f."])], 0⟩
        ["/", "s", "f."] ["d", "f."])
    ∧ (copy_file envC4 6 ⟨[], [], [], [], 0⟩
        ["/", "s", "f."] ["d", "f."]).diverged = true := by
  have h := c4_invalid_arg_retry_behavior envC4 ["/", "s", "f."]
    ["d", "f."] ["d", "f."] ⟨[], [], [], [], 0⟩ 0 (by decide) rfl (by decide)
  exact ⟨h.1, h.2.2.2 rfl (by decide) 6 ⟨[], [], [], [], 0⟩ (by decide)⟩

/-- C3 (amended): a connection-aborted error (OS 103) raised while
iterating a directory listing or while copying a file is always handled
by the remount-recovery protocol and never terminates the process: on a
mid-listing 103 the step continues with the partially extended frontier,
the directory pushed into the registry and a remount performed (first
conjunct); on a copy 103 the file's copy returns success with the path
registered and a remount performed (second conjunct); and a listing
whose error entries are all 103 never panics (fourth conjunct).
However, a 103 returned by the `fs::read_dir` call itself (the
directory-open step of listing) hits `.unwrap()` and panics (third
conjunct) — the claim's "never terminates" does not extend to it. -/
theorem c3_conn_abort_recovery (env : Env) (args : Cli) (cfuel : Nat)
    (st : St) (p : FsPath) (rest : List FsPath) (dp : FsPath)
    (stack2 : List FsPath) :
    (st.stack = p :: rest → p ∉ st.failed →
      dest_path args.dest args.source p = some dp → env.isDir p = true →
      env.mkdirErr dp = none → env.readDirErr p = none →
      process_listing p (env.listing p) rest = some (stack2, true) →
      step env args cfuel st =
        .ok ⟨stack2, p :: st.failed, st.destFiles, st.copyAttempts,
          st.remounts + 1⟩)
    ∧ (∀ n fr tgt st1, tgt ∉ st1.destFiles →
        env.copyErr fr tgt = some 103 →
        copy_file env (n+1) st1 fr tgt =
          .ok ⟨st1.stack, fr :: st1.failed, st1.destFiles,
            (fr, tgt) :: st1.copyAttempts, st1.remounts + 1⟩)
    ∧ (∀ c, st.stack = p :: rest → p ∉ st.failed →
        dest_path args.dest args.source p = some dp → env.isDir p = true →
        env.mkdirErr dp = none → env.readDirErr p = some c →
        step env args cfuel st = .panic)
    ∧ (∀ items s0, only_abort_errors items = true →
        (process_listing p items s0).isSome = true) := by
  refine ⟨?_, ?_, ?_, ?_⟩
  · intro hstk hpf hdp hdir hmk hrd hpl
    simp only [step, hstk, hdp, hdir, hmk, hrd, hpl]
    simp [hpf, handle_software_caused_connection_abort]
  · intro n fr tgt st1 h1 h2
    rw [copy_file_err env n st1 fr tgt 103 h1 h2,
      if_neg (show ¬(103:Nat) = 5 by decide), if_pos rfl]
    rfl
  · intro c hstk hpf hdp hdir hmk hrd
    simp only [step, hstk, hdp, hdir, hmk, hrd]
    simp [hpf]
  · intro items
    induction items with
    | nil => intro s0 _; rfl
    | cons e rest2 ih =>
      intro s0 hok
      unfold only_abort_errors at hok
      rw [List.all_cons] at hok
      have h2 := (Bool.and_eq_true _ _).mp hok
      cases e with
      | ok name => exact ih _ h2.2
      | err code =>
        have hc : code = 103 := by simpa using h2.1
        subst hc
        rfl

def argsC3 : Cli := ⟨"/dev/x", "/mnt", ["/", "src"], ["out"]⟩

def envC3 : Env :=
  { isDir := fun p => decide (p = ["/", "src", "D"])
    readDirErr := fun p => if p = ["/", "src", "D"] then some 103 else none
    listing := fun _ => []
    mkdirErr := fun _ => none
    copyErr := fun _ _ => none }

/-- C3 counterexample: OS error 103 returned by the `fs::read_dir` call
itself (the directory-open step of listing a directory) hits the
`.unwrap()` on line 72 of src/main.rs and panics — terminating the
process — instead of being routed through the remount-recovery
protocol. -/
theorem c3_open_listing_abort_panics :
    step envC3 argsC3 1 ⟨[["/", "src", "D"]], [], [], [], 0⟩ = .panic := by
  decide

def envC3w : Env :=
  { isDir := fun p =>
      decide (p = ["/", "src", "C"] ∨ p = ["/", "src", "E"])
    readDirErr := fun p => if p = ["/", "src", "E"] then some 103 else none
    listing := fun p =>
      if p = ["/", "src", "C"] then [.ok "p.txt", .err 103] else []
    mkdirErr := fun _ => none
    copyErr := fun _ _ => some 103 }

/-- C3 witness: the amended theorem applied at a concrete environment:
a mid-listing abort recovers with a remount, a copy abort recovers with
a remount, the open-abort panics, and an all-103 listing never panics. -/
theorem c3_witness :
    step envC3w argsC3 1 ⟨[["/", "src", "C"]], [], [], [], 0⟩ =
      .ok ⟨[["/", "src", "C", "p.txt"]], [["/", "src", "C"]], [], [], 1⟩
    ∧ copy_file envC3w 1 ⟨[], [], [], [], 0⟩
        ["/", "src", "C", "p.txt"] ["out", "C", "p.txt"] =
        .ok ⟨[], [["/", "src", "C", "p.txt"]], [],
          [(["/", "src", "C", "p.txt"], ["out", "C", "p.txt"])], 1⟩
    ∧ step envC3w argsC3 1 ⟨[["/", "src", "E"]], [], [], [], 0⟩ = .panic
    ∧ (process_listing ["/", "src", "C"]
        [.ok "x", .err 103] []).isSome = true := by
  refine ⟨?_, ?_, ?_, ?_⟩
  · exact (c3_conn_abort_recovery envC3w argsC3 1
      ⟨[["/", "src", "C"]], [], [], [], 0⟩ ["/", "src", "C"] []
      ["out", "C"] [["/", "src", "C", "p.txt"]]).1 rfl (by decide)
      (by decide) (by decide) (by decide) (by decide) (by decide)
  · exact (c3_conn_abort_recovery envC3w argsC3 1
      ⟨[], [], [], [], 0⟩ [] [] [] []).2.1 0
      ["/", "src", "C", "p.txt"] ["out", "C", "p.txt"]
      ⟨[], [], [], [], 0⟩ (by decide) (by decide)
  · exact (c3_conn_abort_recovery envC3w argsC3 1
      ⟨[["/", "src", "E"]], [], [], [], 0⟩ ["/", "src", "E"] []
      ["out", "E"] []).2.2.1 103 rfl (by decide) (by decide) (by decide)
      (by decide) (by decide)
  · exact (c3_conn_abort_recovery envC3w argsC3 1
      ⟨[], [], [], [], 0⟩ ["/", "src", "C"] [] [] []).2.2.2
      [.ok "x", .err 103] [] (by decide)

/-- Unfolding of `copy_file` when `fs::copy` succeeds. -/
theorem copy_file_ok_none (env : Env) (fuel : Nat) (st : St)
    (fr tgt : FsPath) (hx : tgt ∉ st.destFiles)
    (he : env.copyErr fr tgt = none) :
    copy_file env (fuel+1) st fr tgt =
      .ok { st with copyAttempts := (fr, tgt) :: st.copyAttempts,
                    destFiles := tgt :: st.destFiles } := by
  rw [copy_file_succ, if_neg hx, he]

/-- Effects of any non-panicking `copy_file` execution: the stack is
untouched, the registry only ever gains the source path `fr`, the
destination files only grow, and every new copy attempt has source
`fr`. -/
theorem copy_file_shape (env : Env) :
    ∀ (n : Nat) (st : St) (fr tgt : FsPath) (st2 : St),
      (copy_file env n st fr tgt = .ok st2 ∨
        copy_file env n st fr tgt = .outOfFuel st2) →
      st2.stack = st.stack
      ∧ (∀ x, x ∈ st.failed → x ∈ st2.failed)
      ∧ (∀ x, x ∈ st2.failed → x ∈ st.failed ∨ x = fr)
      ∧ (∀ x, x ∈ st.destFiles → x ∈ st2.destFiles)
      ∧ (∀ a, a ∈ st2.copyAttempts → a ∈ st.copyAttempts ∨ a.1 = fr) := by
  intro n
  induction n with
  | zero =>
    intro st fr tgt st2 h
    rcases h with h | h
    · exact absurd h (by simp [copy_file])
    · have h2 : st = st2 := by
        have h3 : CRes.outOfFuel st = CRes.outOfFuel st2 := h
        exact CRes.outOfFuel.inj h3
      subst h2
      exact ⟨rfl, fun x hx => hx, fun x hx => Or.inl hx, fun x hx => hx,
        fun a ha => Or.inl ha⟩
  | succ n ih =>
    intro st fr tgt st2 h
    by_cases hmem : tgt ∈ st.destFiles
    · have hok : copy_file env (n+1) st fr tgt = .ok st := by
        rw [copy_file_succ, if_pos hmem]
      rcases h with h | h
      · rw [hok] at h
        obtain rfl := CRes.ok.inj h
        exact ⟨rfl, fun x hx => hx, fun x hx => Or.inl hx, fun x hx => hx,
          fun a ha => Or.inl ha⟩
      · rw [hok] at h
        exact absurd h (by simp)
    · cases he : env.copyErr fr tgt with
      | none =>
        rw [copy_file_ok_none env n st fr tgt hmem he] at h
        rcases h with h | h
        · obtain rfl := CRes.ok.inj h
          refine ⟨rfl, fun x hx => hx, fun x hx => Or.inl hx,
            fun x hx => List.mem_cons_of_mem _ hx, ?_⟩
          intro a ha
          rcases List.mem_cons.mp ha with h1 | h1
          · exact Or.inr (by rw [h1])
          · exact Or.inl h1
        · exact absurd h (by simp)
      | some code =>
        rw [copy_file_err env n st fr tgt code hmem he] at h
        by_cases h5 : code = 5
        · rw [if_pos h5] at h
          rcases h with h | h
          · obtain rfl := CRes.ok.inj h
            refine ⟨rfl, fun x hx => hx, fun x hx => Or.inl hx,
              fun x hx => hx, ?_⟩
            intro a ha
            rcases List.mem_cons.mp ha with h1 | h1
            · exact Or.inr (by rw [h1])
            · exact Or.inl h1
          · exact absurd h (by simp)
        · rw [if_neg h5] at h
          by_cases h103 : code = 103
          · rw [if_pos h103] at h
            rcases h with h | h
            · obtain rfl := CRes.ok.inj h
              refine ⟨rfl, fun x hx => List.mem_cons_of_mem _ hx, ?_,
                fun x hx => hx, ?_⟩
              · intro x hx
                rcases List.mem_cons.mp hx with h1 | h1
                · exact Or.inr h1
                · exact Or.inl h1
              · intro a ha
                rcases List.mem_cons.mp ha with h1 | h1
                · exact Or.inr (by rw [h1])
                · exact Or.inl h1
            · exact absurd h (by simp [handle_software_caused_connection_abort])
          · rw [if_neg h103] at h
            by_cases h22 : code = 22
            · rw [if_pos h22] at h
              cases hrep : replace_forbidden_characters tgt with
              | none =>
                rw [hrep] at h
                rcases h with h | h <;> exact absurd h (by simp)
              | some tgt2 =>
                rw [hrep] at h
                obtain ⟨hstack, hff, hfb, hdest, hatt⟩ := ih
                  { st with copyAttempts := (fr, tgt) :: st.copyAttempts }
                  fr tgt2 st2 h
                refine ⟨hstack, fun x hx => hff x hx, hfb,
                  fun x hx => hdest x hx, ?_⟩
                intro a ha
                rcases hatt a ha with h1 | h1
                · rcases List.mem_cons.mp h1 with h2 | h2
                  · exact Or.inr (by rw [h2])
                  · exact Or.inl h2
                · exact Or.inr h1
            · rw [if_neg h22] at h
              rcases h with h | h <;> exact absurd h (by simp)

/-- Every path on the stack produced by `process_listing` was already
there or is an immediate child of the listed directory. -/
theorem process_listing_mem (parent : FsPath) :
    ∀ (items : List EntryRes) (s0 stk2 : List FsPath) (b : Bool),
      process_listing parent items s0 = some (stk2, b) →
      ∀ q, q ∈ stk2 → q ∈ s0 ∨ ∃ nm, q = parent ++ [nm] := by
  intro items
  induction items with
  | nil =>
    intro s0 stk2 b h q hq
    have h2 : s0 = stk2 := congrArg Prod.fst (Option.some.inj h)
    subst h2
    exact Or.inl hq
  | cons e rest ih =>
    intro s0 stk2 b h q hq
    cases e with
    | ok nm =>
      rcases ih ((parent ++ [nm]) :: s0) stk2 b h q hq with h1 | h1
      · rcases List.mem_cons.mp h1 with h2 | h2
        · exact Or.inr ⟨nm, h2⟩
        · exact Or.inl h2
      · exact Or.inr h1
    | err code =>
      have h2 : (if code = 103 then some (s0, true)
          else (none : Option (List FsPath × Bool))) = some (stk2, b) := h
      by_cases hc : code = 103
      · rw [if_pos hc] at h2
        have h3 : s0 = stk2 := congrArg Prod.fst (Option.some.inj h2)
        subst h3
        exact Or.inl hq
      · rw [if_neg hc] at h2
        exact absurd h2 (by simp)

/-- A fresh child of a directory that is neither `p` nor strictly under
`p` is itself not strictly under `p`. -/
theorem child_not_under (p parent : FsPath) (nm : String)
    (hne : p ≠ parent) (hnu : ¬ strictUnder p parent) :
    ¬ strictUnder p (parent ++ [nm]) := by
  rintro ⟨hpre, hneq⟩
  have hlen := hpre.length_le
  rw [List.length_append, List.length_singleton] at hlen
  by_cases hle : p.length ≤ parent.length
  · have hp2 : p <+: parent :=
      List.prefix_of_prefix_length_le hpre (List.prefix_append parent [nm]) hle
    exact hnu ⟨hp2, hne⟩
  · have hlen2 : p.length = (parent ++ [nm]).length := by
      rw [List.length_append, List.length_singleton]
      omega
    exact hneq (List.IsPrefix.eq_of_length hpre hlen2)

/-- Case analysis of a successful traversal step: the popped path was
either skipped as a known failure, or expanded as a directory (with or
without a mid-listing abort), or handed to `copy_file`. -/
theorem step_cases (env : Env) (args : Cli) (cfuel : Nat) (st st2 : St)
    (h : step env args cfuel st = .ok st2) :
    ∃ q rest, st.stack = q :: rest ∧
      ((q ∈ st.failed ∧ st2 = { st with stack := rest })
       ∨ (q ∉ st.failed ∧
           ((∃ stk2 b, process_listing q (env.listing q) rest = some (stk2, b)
              ∧ (b = false ∧ st2 = { st with stack := stk2 }
                 ∨ b = true ∧ st2 = handle_software_caused_connection_abort
                     { st with stack := stk2 } q))
            ∨ ∃ dp, dest_path args.dest args.source q = some dp
                ∧ copy_file env cfuel { st with stack := rest } q dp
                    = .ok st2))) := by
  cases hs : st.stack with
  | nil => simp [step, hs] at h
  | cons q rest =>
    refine ⟨q, rest, rfl, ?_⟩
    by_cases hqf : q ∈ st.failed
    · left
      simp only [step, hs] at h
      rw [if_pos hqf] at h
      exact ⟨hqf, (StepRes.ok.inj h).symm⟩
    · right
      refine ⟨hqf, ?_⟩
      cases hdp : dest_path args.dest args.source q with
      | none =>
        simp only [step, hs, hdp] at h
        rw [if_neg hqf] at h
        simp at h
      | some dp =>
        cases hdir : env.isDir q with
        | false =>
          right
          refine ⟨dp, rfl, ?_⟩
          simp only [step, hs, hdp, hdir] at h
          rw [if_neg hqf] at h
          simp only [Bool.false_eq_true, if_false] at h
          cases hcf : copy_file env cfuel { st with stack := rest } q dp with
          | ok st3 =>
            rw [hcf] at h
            have h2 : StepRes.ok st3 = StepRes.ok st2 := h
            exact congrArg CRes.ok (StepRes.ok.inj h2)
          | panic =>
            rw [hcf] at h
            have h2 : StepRes.panic = StepRes.ok st2 := h
            exact absurd h2 (by simp)
          | outOfFuel st3 =>
            rw [hcf] at h
            have h2 : StepRes.outOfFuel st3 = StepRes.ok st2 := h
            exact absurd h2 (by simp)
        | true =>
          left
          cases hpl : process_listing q (env.listing q) rest with
          | none =>
            cases hmk : env.mkdirErr dp with
            | none =>
              cases hrd : env.readDirErr q with
              | none =>
                simp only [step, hs, hdp, hdir, hmk, hrd, hpl] at h
                rw [if_neg hqf] at h
                simp at h
              | some c =>
                simp only [step, hs, hdp, hdir, hmk, hrd] at h
                rw [if_neg hqf] at h
                simp at h
            | some code =>
              by_cases h22 : code = 22
              · subst h22
                cases hrep : replace_forbidden_characters dp with
                | none =>
                  simp only [step, hs, hdp, hdir, hmk, hrep] at h
                  rw [if_neg hqf] at h
                  simp at h
                | some dp2 =>
                  cases hmk2 : env.mkdirErr dp2 with
                  | none =>
                    cases hrd : env.readDirErr q with
                    | none =>
                      simp only [step, hs, hdp, hdir, hmk, hrep, hmk2, hrd,
                        hpl] at h
                      rw [if_neg hqf] at h
                      simp at h
                    | some c =>
                      simp only [step, hs, hdp, hdir, hmk, hrep, hmk2,
                        hrd] at h
                      rw [if_neg hqf] at h
                      simp at h
                  | some c2 =>
                    simp only [step, hs, hdp, hdir, hmk, hrep, hmk2] at h
                    rw [if_neg hqf] at h
                    simp at h
              · simp only [step, hs, hdp, hdir, hmk] at h
                rw [if_neg hqf] at h
                rw [if_neg h22] at h
                simp at h
          | some pr =>
            obtain ⟨stk2, b⟩ := pr
            refine ⟨stk2, b, rfl, ?_⟩
            cases hmk : env.mkdirErr dp with
            | none =>
              cases hrd : env.readDirErr q with
              | none =>
                simp only [step, hs, hdp, hdir, hmk, hrd, hpl] at h
                rw [if_neg hqf] at h
                cases b with
                | false =>
                  simp only [if_false, Bool.false_eq_true] at h
                  exact Or.inl ⟨rfl, (StepRes.ok.inj h).symm⟩
                | true =>
                  simp only [if_true] at h
                  exact Or.inr ⟨rfl, (StepRes.ok.inj h).symm⟩
              | some c =>
                simp only [step, hs, hdp, hdir, hmk, hrd] at h
                rw [if_neg hqf] at h
                simp at h
            | some code =>
              by_cases h22 : code = 22
              · subst h22
                cases hrep : replace_forbidden_characters dp with
                | none =>
                  simp only [step, hs, hdp, hdir, hmk, hrep] at h
                  rw [if_neg hqf] at h
                  simp at h
                | some dp2 =>
                  cases hmk2 : env.mkdirErr dp2 with
                  | none =>
                    cases hrd : env.readDirErr q with
                    | none =>
                      simp only [step, hs, hdp, hdir, hmk, hrep, hmk2, hrd,
                        hpl] at h
                      rw [if_neg hqf] at h
                      cases b with
                      | false =>
                        simp only [if_false, Bool.false_eq_true] at h
                        exact Or.inl ⟨rfl, (StepRes.ok.inj h).symm⟩
                      | true =>
                        simp only [if_true] at h
                        exact Or.inr ⟨rfl, (StepRes.ok.inj h).symm⟩
                    | some c =>
                      simp only [step, hs, hdp, hdir, hmk, hrep, hmk2,
                        hrd] at h
                      rw [if_neg hqf] at h
                      simp at h
                  | some c2 =>
                    simp only [step, hs, hdp, hdir, hmk, hrep, hmk2] at h
                    rw [if_neg hqf] at h
                    simp at h
              · simp only [step, hs, hdp, hdir, hmk] at h
                rw [if_neg hqf] at h
                rw [if_neg h22] at h
                simp at h

/-- One traversal step preserves: `p` stays registered, no stack entry
is strictly under `p`, and any new copy attempt is not from strictly
under `p`. -/
theorem step_preserves_blocked (env : Env) (args : Cli) (cfuel : Nat)
    (p : FsPath) (st st2 : St) (h : step env args cfuel st = .ok st2)
    (hp : p ∈ st.failed) (hstk : ∀ q, q ∈ st.stack → ¬ strictUnder p q) :
    p ∈ st2.failed
    ∧ (∀ q, q ∈ st2.stack → ¬ strictUnder p q)
    ∧ (∀ a, a ∈ st2.copyAttempts →
        a ∈ st.copyAttempts ∨ ¬ strictUnder p a.1) := by
  obtain ⟨q, rest, hs, hcase⟩ := step_cases env args cfuel st st2 h
  have hq : ¬ strictUnder p q :=
    hstk q (by rw [hs]; exact List.mem_cons_self q rest)
  have hrest : ∀ x, x ∈ rest → ¬ strictUnder p x := fun x hx =>
    hstk x (by rw [hs]; exact List.mem_cons_of_mem q hx)
  rcases hcase with ⟨hqf, rfl⟩ | ⟨hqf, hcase⟩
  · exact ⟨hp, hrest, fun a ha => Or.inl ha⟩
  · have hpq : p ≠ q := fun he => hqf (he ▸ hp)
    rcases hcase with ⟨stk2, b, hpl, hb⟩ | ⟨dp, hdp, hcf⟩
    · have hstk2 : ∀ x, x ∈ stk2 → ¬ strictUnder p x := by
        intro x hx
        rcases process_listing_mem q (env.listing q) rest stk2 b hpl x hx with
          hxr | ⟨nm, hnm⟩
        · exact hrest x hxr
        · rw [hnm]
          exact child_not_under p q nm hpq hq
      rcases hb with ⟨_, rfl⟩ | ⟨_, rfl⟩
      · exact ⟨hp, hstk2, fun a ha => Or.inl ha⟩
      · exact ⟨List.mem_cons_of_mem q hp, hstk2, fun a ha => Or.inl ha⟩
    · obtain ⟨hstack, hff, _, _, hatt⟩ :=
        copy_file_shape env cfuel { st with stack := rest } q dp st2
          (Or.inl hcf)
      refine ⟨hff p hp, ?_, ?_⟩
      · intro x hx
        rw [hstack] at hx
        exact hrest x hx
      · intro a ha
        rcases hatt a ha with h1 | h1
        · exact Or.inl h1
        · exact Or.inr (by rw [h1]; exact hq)

/-- C2 (amended): once a directory path `p` is in the Failure Registry,
and provided no path strictly under `p` is still queued on the frontier
at that moment, then at every later point of the run `p` is still
registered, no frontier path lies strictly under `p`, and no copy
attempt from a path strictly under `p` is ever made.  (The proviso is
necessary: children of `p` queued by the partial listing before the
abort are NOT protected — see the counterexample.) -/
theorem c2_failure_registry_blocks_undiscovered (env : Env) (args : Cli)
    (cfuel : Nat) (p : FsPath) :
    ∀ (n : Nat) (st st2 : St),
      p ∈ st.failed →
      (∀ q, q ∈ st.stack → ¬ strictUnder p q) →
      stepN env args cfuel n st = some st2 →
      p ∈ st2.failed
      ∧ (∀ q, q ∈ st2.stack → ¬ strictUnder p q)
      ∧ (∀ a, a ∈ st2.copyAttempts →
          a ∈ st.copyAttempts ∨ ¬ strictUnder p a.1) := by
  intro n
  induction n with
  | zero =>
    intro st st2 hp hstk h
    obtain rfl := Option.some.inj h
    exact ⟨hp, hstk, fun a ha => Or.inl ha⟩
  | succ n ih =>
    intro st st2 hp hstk h
    cases hsr : step env args cfuel st with
    | done =>
      have h2 : some st = some st2 := by
        have h3 := h
        unfold stepN at h3
        rw [hsr] at h3
        exact h3
      obtain rfl := Option.some.inj h2
      exact ⟨hp, hstk, fun a ha => Or.inl ha⟩
    | panic =>
      have h2 : (none : Option St) = some st2 := by
        have h3 := h
        unfold stepN at h3
        rw [hsr] at h3
        exact h3
      exact absurd h2 (by simp)
    | outOfFuel st3 =>
      have h2 : (none : Option St) = some st2 := by
        have h3 := h
        unfold stepN at h3
        rw [hsr] at h3
        exact h3
      exact absurd h2 (by simp)
    | ok st3 =>
      have h2 : stepN env args cfuel n st3 = some st2 := by
        have h3 := h
        unfold stepN at h3
        rw [hsr] at h3
        exact h3
      obtain ⟨hp3, hstk3, hatt3⟩ :=
        step_preserves_blocked env args cfuel p st st3 hsr hp hstk
      obtain ⟨hp2, hstk2, hatt2⟩ := ih st3 st2 hp3 hstk3 h2
      refine ⟨hp2, hstk2, ?_⟩
      intro a ha
      rcases hatt2 a ha with h1 | h1
      · exact hatt3 a h1
      · exact Or.inr h1

def argsC2 : Cli := ⟨"/dev/x", "/mnt", ["/", "src"], ["out"]⟩

def envC2 : Env :=
  { isDir := fun p =>
      decide (p = ["/", "src"] ∨ p = ["/", "src", "C"])
    readDirErr := fun _ => none
    listing := fun p =>
      if p = ["/", "src"] then [.ok "C"]
      else if p = ["/", "src", "C"] then [.ok "p.txt", .err 103]
      else []
    mkdirErr := fun _ => none
    copyErr := fun _ _ => none }

/-- C2 counterexample: listing `/src/C` aborts (103) after yielding the
child `p.txt`, so after two steps `/src/C` is in the Failure Registry
with zero copies made — yet the already-queued `/src/C/p.txt`, which
lies strictly under the registered directory, is copied on the third
step of the same run.  This refutes the claim for children queued
before the registration, "regardless of the order in which those paths
were discovered or queued". -/
theorem c2_queued_child_copied_after_failure :
    stepN envC2 argsC2 1 2 ⟨[["/", "src"]], [], [], [], 0⟩ =
      some ⟨[["/", "src", "C", "p.txt"]], [["/", "src", "C"]], [], [], 1⟩
    ∧ stepN envC2 argsC2 1 3 ⟨[["/", "src"]], [], [], [], 0⟩ =
      some ⟨[], [["/", "src", "C"]], [["out", "C", "p.txt"]],
        [(["/", "src", "C", "p.txt"], ["out", "C", "p.txt"])], 1⟩
    ∧ strictUnder ["/", "src", "C"] ["/", "src", "C", "p.txt"] := by
  refine ⟨by decide, by decide, by decide⟩

/-- C2 witness: the amended theorem applied at a concrete state whose
frontier holds no path under the registered directory `/src/C`: after
one step (copying the unrelated `/src/D`), `/src/C` is still registered
and the only copy attempt is not from under it. -/
theorem c2_witness :
    (["/", "src", "C"] : FsPath) ∈ [(["/", "src", "C"] : FsPath)]
    ∧ stepN envC2 argsC2 1 1
        ⟨[["/", "src", "D"]], [["/", "src", "C"]], [], [], 0⟩ =
        some ⟨[], [["/", "src", "C"]], [["out", "D"]],
          [(["/", "src", "D"], ["out", "D"])], 0⟩
    ∧ (["/", "src", "C"] : FsPath) ∈
        St.failed ⟨[], [["/", "src", "C"]], [["out", "D"]],
          [(["/", "src", "D"], ["out", "D"])], 0⟩ := by
  refine ⟨by decide, by decide, ?_⟩
  exact (c2_failure_registry_blocks_undiscovered envC2 argsC2 1
    ["/", "src", "C"] 1
    ⟨[["/", "src", "D"]], [["/", "src", "C"]], [], [], 0⟩
    ⟨[], [["/", "src", "C"]], [["out", "D"]],
      [(["/", "src", "D"], ["out", "D"])], 0⟩
    (by decide) (by decide) (by decide)).1

/-- An environment in which no filesystem operation fails: copies and
directory creations succeed, `read_dir` opens succeed, and every
listing entry is read successfully. -/
def ErrFree (env : Env) : Prop :=
  (∀ fr tgt, env.copyErr fr tgt = none)
  ∧ (∀ p2, env.readDirErr p2 = none)
  ∧ (∀ p2, env.mkdirErr p2 = none)
  ∧ (∀ p2 e, e ∈ env.listing p2 → ∃ nm, e = EntryRes.ok nm)

/-- A listing whose entries are all read successfully never sets the
remount flag and never panics. -/
theorem process_listing_all_ok (parent : FsPath) :
    ∀ (items : List EntryRes) (s0 : List FsPath),
      (∀ e, e ∈ items → ∃ nm, e = EntryRes.ok nm) →
      ∃ stk2, process_listing parent items s0 = some (stk2, false) := by
  intro items
  induction items with
  | nil => intro s0 _; exact ⟨s0, rfl⟩
  | cons e rest ih =>
    intro s0 hok
    obtain ⟨nm, rfl⟩ := hok e (List.mem_cons_self e rest)
    exact ih ((parent ++ [nm]) :: s0)
      (fun e2 he2 => hok e2 (List.mem_cons_of_mem _ he2))

/-- Destination files only grow across a traversal step. -/
theorem step_dest_mono (env : Env) (args : Cli) (cfuel : Nat) (st st2 : St)
    (h : step env args cfuel st = .ok st2) :
    ∀ x, x ∈ st.destFiles → x ∈ st2.destFiles := by
  obtain ⟨q, rest, hs, hcase⟩ := step_cases env args cfuel st st2 h
  rcases hcase with ⟨_, rfl⟩ | ⟨_, hcase⟩
  · exact fun x hx => hx
  rcases hcase with ⟨stk2, b, hpl, hb⟩ | ⟨dp, hdp, hcf⟩
  · rcases hb with ⟨_, rfl⟩ | ⟨_, rfl⟩
    · exact fun x hx => hx
    · exact fun x hx => hx
  · exact (copy_file_shape env cfuel { st with stack := rest } q dp st2
      (Or.inl hcf)).2.2.2.1

/-- Destination files only grow across a whole finished run. -/
theorem copy_tree_dest_mono (env : Env) (args : Cli) :
    ∀ (fuel : Nat) (st s : St),
      copy_tree env args fuel st = .finished s →
      ∀ x, x ∈ st.destFiles → x ∈ s.destFiles := by
  intro fuel
  induction fuel with
  | zero =>
    intro st s h
    exact absurd h (by simp [copy_tree])
  | succ n ih =>
    intro st s h
    cases hsr : step env args (n+1) st with
    | done =>
      have h2 : RunRes.finished st = RunRes.finished s := by
        have h3 := h
        unfold copy_tree at h3
        rw [hsr] at h3
        exact h3
      obtain rfl := RunRes.finished.inj h2
      exact fun x hx => hx
    | panic =>
      have h2 : RunRes.panicked = RunRes.finished s := by
        have h3 := h
        unfold copy_tree at h3
        rw [hsr] at h3
        exact h3
      exact absurd h2 (by simp)
    | outOfFuel st3 =>
      have h2 : RunRes.outOfFuel st3 = RunRes.finished s := by
        have h3 := h
        unfold copy_tree at h3
        rw [hsr] at h3
        exact h3
      exact absurd h2 (by simp)
    | ok st3 =>
      have h2 : copy_tree env args n st3 = .finished s := by
        have h3 := h
        unfold copy_tree at h3
        rw [hsr] at h3
        exact h3
      exact fun x hx =>
        ih st3 s h2 x (step_dest_mono env args (n+1) st st3 hsr x hx)

/-- In a fault-free environment, re-running the traversal from the same
frontier against a destination that already contains every file the
first run ended with terminates with no registry change and NO copy
attempts at all: every `copy_file` call hits the exists-skip branch. -/
theorem copy_tree_rerun (env : Env) (args : Cli)
    (hc : ∀ fr tgt, env.copyErr fr tgt = none)
    (hr : ∀ p2, env.readDirErr p2 = none)
    (hm : ∀ p2, env.mkdirErr p2 = none)
    (hl : ∀ p2 e, e ∈ env.listing p2 → ∃ nm, e = EntryRes.ok nm) :
    ∀ (fuel : Nat) (stk fl d : List FsPath)
      (ca : List (FsPath × FsPath)) (rc : Nat) (d2 : List FsPath)
      (ca2 : List (FsPath × FsPath)) (rc2 : Nat) (s : St),
      (∀ q, q ∈ stk → args.source <+: q) →
      copy_tree env args fuel ⟨stk, fl, d, ca, rc⟩ = .finished s →
      (∀ x, x ∈ s.destFiles → x ∈ d2) →
      copy_tree env args fuel ⟨stk, fl, d2, ca2, rc2⟩ =
        .finished ⟨[], fl, d2, ca2, rc2⟩ := by
  intro fuel
  induction fuel with
  | zero =>
    intro stk fl d ca rc d2 ca2 rc2 s hq h hsub
    exact absurd h (by simp [copy_tree])
  | succ n ih =>
    intro stk fl d ca rc d2 ca2 rc2 s hq h hsub
    cases stk with
    | nil =>
      unfold copy_tree
      rfl
    | cons q rest =>
      have hqrest : ∀ x, x ∈ rest → args.source <+: x :=
        fun x hx => hq x (List.mem_cons_of_mem q hx)
      have hpre : args.source <+: q := hq q (List.mem_cons_self q rest)
      have hdp : ∃ dp, dest_path args.dest args.source q = some dp := by
        unfold dest_path
        rw [if_pos (List.isPrefixOf_iff_prefix.mpr hpre)]
        exact ⟨_, rfl⟩
      obtain ⟨dp, hdp⟩ := hdp
      by_cases hqf : q ∈ fl
      · have hstep1 : ∀ (dx : List FsPath) (cax : List (FsPath × FsPath))
            (rcx : Nat),
            step env args (n+1) ⟨q :: rest, fl, dx, cax, rcx⟩ =
              .ok ⟨rest, fl, dx, cax, rcx⟩ := by
          intro dx cax rcx
          simp only [step]
          rw [if_pos hqf]
        have h2 : copy_tree env args n ⟨rest, fl, d, ca, rc⟩ = .finished s := by
          have h3 := h
          unfold copy_tree at h3
          rw [hstep1 d ca rc] at h3
          exact h3
        have hgoal := ih rest fl d ca rc d2 ca2 rc2 s hqrest h2 hsub
        unfold copy_tree
        rw [hstep1 d2 ca2 rc2]
        exact hgoal
      · cases hdir : env.isDir q with
        | true =>
          obtain ⟨stk2, hpl⟩ :=
            process_listing_all_ok q (env.listing q) rest (hl q)
          have hstep1 : ∀ (dx : List FsPath) (cax : List (FsPath × FsPath))
              (rcx : Nat),
              step env args (n+1) ⟨q :: rest, fl, dx, cax, rcx⟩ =
                .ok ⟨stk2, fl, dx, cax, rcx⟩ := by
            intro dx cax rcx
            simp only [step, hdp, hdir, hm dp, hr q, hpl]
            rw [if_neg hqf]
            simp [hm]
          have hq2 : ∀ x, x ∈ stk2 → args.source <+: x := by
            intro x hx
            rcases process_listing_mem q (env.listing q) rest stk2 false hpl
              x hx with h1 | ⟨nm, hnm⟩
            · exact hqrest x h1
            · rw [hnm]
              exact hpre.trans (List.prefix_append q [nm])
          have h2 : copy_tree env args n ⟨stk2, fl, d, ca, rc⟩ =
              .finished s := by
            have h3 := h
            unfold copy_tree at h3
            rw [hstep1 d ca rc] at h3
            exact h3
          have hgoal := ih stk2 fl d ca rc d2 ca2 rc2 s hq2 h2 hsub
          unfold copy_tree
          rw [hstep1 d2 ca2 rc2]
          exact hgoal
        | false =>
          by_cases hmem : dp ∈ d
          · have hcf1 : copy_file env (n+1) ⟨rest, fl, d, ca, rc⟩ q dp =
                .ok ⟨rest, fl, d, ca, rc⟩ := by
              rw [copy_file_succ, if_pos hmem]
            have hstep1 : step env args (n+1) ⟨q :: rest, fl, d, ca, rc⟩ =
                .ok ⟨rest, fl, d, ca, rc⟩ := by
              simp only [step, hdp, hdir, hcf1]
              rw [if_neg hqf]
              simp
            have h2 : copy_tree env args n ⟨rest, fl, d, ca, rc⟩ =
                .finished s := by
              have h3 := h
              unfold copy_tree at h3
              rw [hstep1] at h3
              exact h3
            have hdp2 : dp ∈ d2 :=
              hsub dp (copy_tree_dest_mono env args n
                ⟨rest, fl, d, ca, rc⟩ s h2 dp hmem)
            have hcf2 : copy_file env (n+1) ⟨rest, fl, d2, ca2, rc2⟩ q dp =
                .ok ⟨rest, fl, d2, ca2, rc2⟩ := by
              rw [copy_file_succ, if_pos hdp2]
            have hstep2 : step env args (n+1) ⟨q :: rest, fl, d2, ca2, rc2⟩ =
                .ok ⟨rest, fl, d2, ca2, rc2⟩ := by
              simp only [step, hdp, hdir, hcf2]
              rw [if_neg hqf]
              simp
            have hgoal := ih rest fl d ca rc d2 ca2 rc2 s hqrest h2 hsub
            unfold copy_tree
            rw [hstep2]
            exact hgoal
          · have hcf1 : copy_file env (n+1) ⟨rest, fl, d, ca, rc⟩ q dp =
                .ok ⟨rest, fl, dp :: d, (q, dp) :: ca, rc⟩ := by
              rw [copy_file_ok_none env n ⟨rest, fl, d, ca, rc⟩ q dp hmem
                (hc q dp)]
            have hstep1 : step env args (n+1) ⟨q :: rest, fl, d, ca, rc⟩ =
                .ok ⟨rest, fl, dp :: d, (q, dp) :: ca, rc⟩ := by
              simp only [step, hdp, hdir, hcf1]
              rw [if_neg hqf]
              simp
            have h2 : copy_tree env args n
                ⟨rest, fl, dp :: d, (q, dp) :: ca, rc⟩ = .finished s := by
              have h3 := h
              unfold copy_tree at h3
              rw [hstep1] at h3
              exact h3
            have hdp2 : dp ∈ d2 :=
              hsub dp (copy_tree_dest_mono env args n
                ⟨rest, fl, dp :: d, (q, dp) :: ca, rc⟩ s h2 dp
                (List.mem_cons_self dp d))
            have hcf2 : copy_file env (n+1) ⟨rest, fl, d2, ca2, rc2⟩ q dp =
                .ok ⟨rest, fl, d2, ca2, rc2⟩ := by
              rw [copy_file_succ, if_pos hdp2]
            have hstep2 : step env args (n+1) ⟨q :: rest, fl, d2, ca2, rc2⟩ =
                .ok ⟨rest, fl, d2, ca2, rc2⟩ := by
              simp only [step, hdp, hdir, hcf2]
              rw [if_neg hqf]
              simp
            have hgoal := ih rest fl (dp :: d) ((q, dp) :: ca) rc d2 ca2 rc2
              s hqrest h2 hsub
            unfold copy_tree
            rw [hstep2]
            exact hgoal

/-- C6: if the destination path already exists, `copy_file` returns
success immediately with the state — in particular the copy-attempt
trace — completely unchanged (first conjunct); consequently, in a
fault-free environment, a second run of the whole traversal from the
same frontier against the destination files produced by a finished
first run terminates having performed zero `fs::copy` invocations and
zero destination writes (second conjunct: its final state keeps the
initial, empty, attempt trace). -/
theorem c6_skip_existing_and_idempotent_rerun :
    (∀ (env : Env) (n : Nat) (st : St) (fr tgt : FsPath),
      tgt ∈ st.destFiles → copy_file env (n+1) st fr tgt = .ok st)
    ∧ (∀ (env : Env) (args : Cli) (fuel : Nat) (stk fl d : List FsPath)
        (ca : List (FsPath × FsPath)) (rc : Nat)
        (ca2 : List (FsPath × FsPath)) (rc2 : Nat) (s : St),
        ErrFree env →
        (∀ q, q ∈ stk → args.source <+: q) →
        copy_tree env args fuel ⟨stk, fl, d, ca, rc⟩ = .finished s →
        copy_tree env args fuel ⟨stk, fl, s.destFiles, ca2, rc2⟩ =
          .finished ⟨[], fl, s.destFiles, ca2, rc2⟩) := by
  constructor
  · intro env n st fr tgt h
    rw [copy_file_succ, if_pos h]
  · intro env args fuel stk fl d ca rc ca2 rc2 s hEF hq h
    obtain ⟨hc, hr, hm, hl⟩ := hEF
    exact copy_tree_rerun env args hc hr hm hl fuel stk fl d ca rc
      s.destFiles ca2 rc2 s hq h (fun x hx => hx)

def envC6 : Env :=
  { isDir := fun p => decide (p = ["s"])
    readDirErr := fun _ => none
    listing := fun p => if p = ["s"] then [.ok "f1"] else []
    mkdirErr := fun _ => none
    copyErr := fun _ _ => none }

def argsC6 : Cli := ⟨"/dev/x", "/mnt", ["s"], ["d"]⟩

/-- C6 witness: an existing destination is skipped with the state
unchanged; a concrete first run copies `s/f1` to `d/f1`; the second run
over the produced destination finishes with an empty attempt trace. -/
theorem c6_witness :
    copy_file envC6 1 ⟨[], [], [["d", "f1"]], [], 0⟩ ["s", "f1"]
      ["d", "f1"] = .ok ⟨[], [], [["d", "f1"]], [], 0⟩
    ∧ copy_tree envC6 argsC6 3 ⟨[["s"]], [], [], [], 0⟩ =
      .finished ⟨[], [], [["d", "f1"]], [(["s", "f1"], ["d", "f1"])], 0⟩
    ∧ copy_tree envC6 argsC6 3 ⟨[["s"]], [], [["d", "f1"]], [], 0⟩ =
      .finished ⟨[], [], [["d", "f1"]], [], 0⟩ := by
  have hlist : ∀ p2 e, e ∈ envC6.listing p2 → ∃ nm, e = EntryRes.ok nm := by
    intro p2 e he
    simp only [envC6] at he
    by_cases hp2 : p2 = ["s"]
    · rw [if_pos hp2] at he
      rw [List.mem_singleton] at he
      exact ⟨"f1", he⟩
    · rw [if_neg hp2] at he
      exact absurd he (by simp)
  refine ⟨c6_skip_existing_and_idempotent_rerun.1 envC6 0 _ _ _ (by decide),
    by decide, ?_⟩
  exact c6_skip_existing_and_idempotent_rerun.2 envC6 argsC6 3 [["s"]]
    [] [] [] 0 [] 0
    ⟨[], [], [["d", "f1"]], [(["s", "f1"], ["d", "f1"])], 0⟩
    ⟨fun _ _ => rfl, fun _ => rfl, fun _ => rfl, hlist⟩
    (by decide) (by decide)
